import Mathlib

/-!
# Formal model of the voicesummary core: voice analyzer and comparison orchestrator

Shallow embedding of the algorithmic core of the repository:

* `app/utils/improved_voice_analyzer.py` — speech-segment detection (mask walk
  and merge pass), pause detection and classification, interruption and pause
  de-duplication, and the conversation health score.
* `app/utils/latency_calculator.py` — latency percentile computation.
* `app/utils/comparison_orchestrator.py` — per-run metric processing, the
  composite score, per-agent aggregation, the comparison driver, and the
  ranking pass.
* `app/utils/turn_accuracy_validator.py` — the judge-result handling relevant
  to degraded-result defaults.

Times, scores and latencies are Python floats in the source; they are embedded
as rationals (`ℚ`).  Python's `round(x, n)` (round-half-even to `n` decimal
digits) is embedded as `roundTo`.  External effects (librosa feature
extraction, LLM calls, the database) enter the model as parameters: a boolean
speech mask, an energy-trigger oracle, judge results as `Except`/`Option`
values, and a square-root function for `np.std`.
-/

/-- Round-half-even to the nearest integer, the rule used by Python's builtin
`round`. -/
def roundHalfEven (x : ℚ) : ℤ :=
  let n := ⌊x⌋
  let f := x - n
  if f < 1/2 then n
  else if 1/2 < f then n + 1
  else if n % 2 = 0 then n else n + 1

/-- Python's `round(x, d)`: round-half-even at `d` decimal digits. -/
def roundTo (d : ℕ) (x : ℚ) : ℚ :=
  (roundHalfEven (x * 10 ^ d) : ℚ) / 10 ^ d

/-! ## Speech-segment detection (`ImprovedVoiceAnalyzer.detect_speech_segments`)

The librosa feature extraction (spectral rolloff, RMS, zero-crossing rate,
percentile thresholds, 2-of-3 vote, morphological smoothing) produces a
boolean per-frame speech mask from the waveform; the mask enters the model as
a parameter.  Frame `i` is at time `512 * i / sr` seconds
(`librosa.frames_to_time` with `hop_length = 512`). -/

/-- A speech segment `{'start': ..., 'end': ...}`.  The Python dict also
carries `'duration'`, always equal to `end - start`; it is modelled as the
derived function `SpeechSegment.duration`.  (`end` is a Lean keyword, so the
field is named `endTime`.) -/
structure SpeechSegment where
  start : ℚ
  endTime : ℚ
deriving DecidableEq, Repr

def SpeechSegment.duration (s : SpeechSegment) : ℚ := s.endTime - s.start

/-- Model of `librosa.frames_to_time(i, sr=sr, hop_length=512)`. -/
def frame_time (sr : ℚ) (i : ℕ) : ℚ := 512 * i / sr

/-- The mask-walking loop of `detect_speech_segments`: open a segment on a
`False → True` transition, close it on a `True → False` transition keeping it
only when longer than 0.2 s, and close a still-open segment at `times[-1]`
(passed in as `lastTime`) when the audio ends mid-speech. -/
def vad_walk (lastTime : ℚ) : List (ℚ × Bool) → Option ℚ → List SpeechSegment
  | [], none => []
  | [], some segStart => [⟨segStart, lastTime⟩]
  | (t, b) :: rest, none =>
      if b then vad_walk lastTime rest (some t) else vad_walk lastTime rest none
  | (t, b) :: rest, some segStart =>
      if b then vad_walk lastTime rest (some segStart)
      else if t - segStart > 1/5 then ⟨segStart, t⟩ :: vad_walk lastTime rest none
      else vad_walk lastTime rest none

/-- The raw (pre-merge) segment list produced by walking the smoothed speech
mask. -/
def raw_speech_segments (sr : ℚ) (mask : List Bool) : List SpeechSegment :=
  let times := (List.range mask.length).map (frame_time sr)
  vad_walk (frame_time sr (mask.length - 1)) (times.zip mask) none

/-- The merge loop of `detect_speech_segments`: absorb the next segment into
the current one when the gap is strictly below 0.2 s, otherwise emit the
current segment and continue from the next. -/
def merge_segments_aux (cur : SpeechSegment) : List SpeechSegment → List SpeechSegment
  | [] => [cur]
  | nxt :: rest =>
      if nxt.start - cur.endTime < 1/5 then merge_segments_aux ⟨cur.start, nxt.endTime⟩ rest
      else cur :: merge_segments_aux nxt rest

def merge_segments : List SpeechSegment → List SpeechSegment
  | [] => []
  | s :: rest => merge_segments_aux s rest

/-- Model of `detect_speech_segments`, as a function of the sample rate and the
framewise speech mask. -/
def detect_speech_segments (sr : ℚ) (mask : List Bool) : List SpeechSegment :=
  merge_segments (raw_speech_segments sr mask)

/-! ## Pause detection (`detect_pauses` and helpers) -/

inductive PauseType
  | short_pause
  | medium_pause
  | long_pause
  | agent_delay
  | conversation_pause
  | enhanced_speech_gap
deriving DecidableEq, Repr

inductive Severity
  | low
  | medium
  | high
deriving DecidableEq, Repr

/-- A detected pause.  The optional `context` dict attached to
transcript-derived pauses is metadata not used by any downstream computation
and is not modelled. -/
structure Pause where
  start_time : ℚ
  end_time : ℚ
  duration : ℚ
  ptype : PauseType
  severity : Severity
  confidence : Option ℚ
deriving DecidableEq, Repr

/-- The sensitivity-dependent thresholds set in `ImprovedVoiceAnalyzer.__init__`:
`(min_pause_duration, long_pause_threshold, medium_pause_threshold)`. -/
def pause_thresholds (sensitivity : String) : ℚ × ℚ × ℚ :=
  if sensitivity = "low" then (6, 10, 7)
  else if sensitivity = "high" then (2, 5, 3)
  else (4, 7, 5)

/-- Method 1 of `detect_pauses`: gaps between consecutive speech segments at
least `minPause` long, classified by the strict thresholds of the source
(`> long_pause_threshold` → long/high, `> medium_pause_threshold` →
medium/medium, otherwise short/low). -/
def primary_pauses (minPause longThr medThr : ℚ) (segs : List SpeechSegment) : List Pause :=
  (segs.zip segs.tail).filterMap fun cn =>
    let gap := cn.2.start - cn.1.endTime
    if gap ≥ minPause then
      if gap > longThr then some ⟨cn.1.endTime, cn.2.start, gap, .long_pause, .high, none⟩
      else if gap > medThr then some ⟨cn.1.endTime, cn.2.start, gap, .medium_pause, .medium, none⟩
      else some ⟨cn.1.endTime, cn.2.start, gap, .short_pause, .low, none⟩
    else none

/-- Method 2 (`_detect_enhanced_pauses`): for each qualifying gap (indexed as
in the Python loop) the RMS-energy analysis of the waveform either fires with
some confidence value (`min(1, energy_drop / energy_threshold)`) or does not;
that analysis reads the audio signal and enters the model as the oracle
`energy_gap`.  A firing gap yields an `enhanced_speech_gap` pause with
severity high when the gap exceeds 5 s, else medium. -/
def enhanced_pauses (minPause : ℚ) (segs : List SpeechSegment)
    (energy_gap : ℕ → Option ℚ) : List Pause :=
  if segs.length < 2 then []
  else
    (segs.zip segs.tail).enum.filterMap fun icn =>
      let gap := icn.2.2.start - icn.2.1.endTime
      if gap ≥ minPause then
        match energy_gap icn.1 with
        | some conf =>
            some ⟨icn.2.1.endTime, icn.2.2.start, gap, .enhanced_speech_gap,
              if gap > 5 then .high else .medium, some conf⟩
        | none => none
      else none

/-- One parsed transcript-timeline turn (`_parse_transcript_timeline` entry).
Only the fields read by the pause detector are modelled. -/
structure TranscriptTurn where
  role : String
  content : String
  start_time : ℚ
  end_time : ℚ
deriving DecidableEq, Repr

/-- Python `'session' in content.lower()`. -/
def contains_session (s : String) : Bool := (s.toLower.splitOn "session").length > 1

/-- Method 3 (`_detect_transcript_based_pauses`): gaps between consecutive
non-session transcript turns; a USER → AGENT/AGENT_SPEECH gap is an
`agent_delay`, anything else a `conversation_pause`; severity high above 5 s,
else medium. -/
def transcript_pauses (minPause : ℚ) (timeline : List TranscriptTurn) : List Pause :=
  let turns := timeline.filter fun t => !contains_session t.content
  (turns.zip turns.tail).filterMap fun cn =>
    let gap := cn.2.start_time - cn.1.end_time
    if gap ≥ minPause then
      some ⟨cn.1.end_time, cn.2.start_time, gap,
        if cn.1.role == "USER" && (cn.2.role == "AGENT_SPEECH" || cn.2.role == "AGENT") then
          .agent_delay
        else .conversation_pause,
        if gap > 5 then .high else .medium, none⟩
    else none

/-- The accumulator loop shared by `_deduplicate_pauses` and
`_deduplicate_interruptions`: keep an element only when no already-kept
element matches it under `isDup`. -/
def dedup_keep (isDup : α → α → Bool) : List α → List α → List α
  | acc, [] => acc
  | acc, x :: rest =>
      if acc.any (fun e => isDup x e) then dedup_keep isDup acc rest
      else dedup_keep isDup (acc ++ [x]) rest

/-- The duplicate test of `_deduplicate_pauses`: start times within 0.5 s and
durations within 0.5 s. -/
def pause_is_dup (p e : Pause) : Bool :=
  decide (|p.start_time - e.start_time| < 1/2) && decide (|p.duration - e.duration| < 1/2)

def deduplicate_pauses (ps : List Pause) : List Pause := dedup_keep pause_is_dup [] ps

/-- Model of `detect_pauses`: primary gap pauses, then enhanced energy pauses (when any
segments exist), then transcript pauses (when a transcript timeline was
loaded), de-duplicated and sorted by start time (Python's stable `sorted`,
embedded as the stable `mergeSort`). -/
def detect_pauses (minPause longThr medThr : ℚ) (segs : List SpeechSegment)
    (energy_gap : ℕ → Option ℚ) (timeline : List TranscriptTurn) : List Pause :=
  let ps := primary_pauses minPause longThr medThr segs
  let ps := ps ++ (if segs.length > 0 then enhanced_pauses minPause segs energy_gap else [])
  let ps := ps ++ (if timeline.isEmpty then [] else transcript_pauses minPause timeline)
  (deduplicate_pauses ps).mergeSort fun a b => decide (a.start_time ≤ b.start_time)

/-! ## Interruptions and termination -/

inductive InterruptionType
  | audio_overlap
  | rapid_response
  | agent_interrupts_user
  | user_interrupts_agent
  | system_overlap
deriving DecidableEq, Repr

/-- A detected interruption; de-duplication reads only `time`.  The audio
path sets `severity`, the transcript path instead attaches a context dict
(metadata, not modelled). -/
structure Interruption where
  time : ℚ
  gap_duration : ℚ
  itype : InterruptionType
  confidence : ℚ
  severity : Option Severity
deriving DecidableEq, Repr

/-- The duplicate test of `_deduplicate_interruptions`: times within 0.1 s. -/
def interruption_is_dup (a e : Interruption) : Bool := decide (|a.time - e.time| < 1/10)

def deduplicate_interruptions (l : List Interruption) : List Interruption :=
  dedup_keep interruption_is_dup [] l

/-- The result dict of `detect_call_termination_issues`. -/
structure TerminationAnalysis where
  session_started_properly : Bool
  session_ended_properly : Bool
  abrupt_ending : Bool
  duplicate_endings : Bool
  last_speaker_was_user : Bool
  issues : List String
deriving DecidableEq, Repr

/-- Model of `_calculate_health_score`: start at 100, subtract 15 per `agent_delay`
pause, 5 per pause (every pause, the agent delays included), 10 per
interruption and 20 per termination issue, floored at 0. -/
def calculate_health_score (pauses : List Pause) (interruptions : List Interruption)
    (termination : TerminationAnalysis) : ℤ :=
  let agent_delays := pauses.filter fun p => p.ptype = PauseType.agent_delay
  max 0 (100 - 15 * (agent_delays.length : ℤ) - 5 * (pauses.length : ℤ)
    - 10 * (interruptions.length : ℤ) - 20 * (termination.issues.length : ℤ))

/-- The health formula exactly as the specification states it, for comparison
with `calculate_health_score`: 100 minus 15 per agent-delay pause, minus 5 per
non-agent-delay pause, minus 10 per interruption, minus 20 per termination
issue, floored at 0. -/
def claimed_health_score (pauses : List Pause) (interruptions : List Interruption)
    (termination : TerminationAnalysis) : ℤ :=
  let agent_delays := pauses.filter fun p => p.ptype = PauseType.agent_delay
  let other_pauses := pauses.filter fun p => ¬ p.ptype = PauseType.agent_delay
  max 0 (100 - 15 * (agent_delays.length : ℤ) - 5 * (other_pauses.length : ℤ)
    - 10 * (interruptions.length : ℤ) - 20 * (termination.issues.length : ℤ))

/-! ## Latency percentiles (`LatencyCalculator.calculate_percentiles`)

The empty input returns a dict of literal zeros.  For non-empty input both the
NumPy branch (`np.median` / `np.percentile`, default linear interpolation) and
the fallback branch compute the same linearly interpolated order statistic
`values[f] + (k - f) * (values[c] - values[f])` with `k = (n-1)·p`,
`f = int(k)`, `c = min(f+1, n-1)`, so one definition covers both. -/

/-- The result dict of `calculate_percentiles` (keys `median`, `p75`, `p99`,
`min`, `max`, `avg`). -/
structure LatencyPercentiles where
  median : ℚ
  p75 : ℚ
  p99 : ℚ
  min : ℚ
  max : ℚ
  avg : ℚ
deriving DecidableEq, Repr

/-- Linear-interpolation percentile over an already-sorted list (`p` as a
fraction in `[0,1]`). -/
def percentile_interp (sorted : List ℚ) (p : ℚ) : ℚ :=
  let n := sorted.length
  let k := ((n : ℚ) - 1) * p
  let f := ⌊k⌋.toNat
  let c := if f + 1 < n then f + 1 else f
  sorted.getD f 0 + (k - f) * (sorted.getD c 0 - sorted.getD f 0)

def list_min : List ℚ → ℚ
  | [] => 0
  | x :: xs => xs.foldl min x

def list_max : List ℚ → ℚ
  | [] => 0
  | x :: xs => xs.foldl max x

/-- Model of `LatencyCalculator.calculate_percentiles` on the extracted latency values
(seconds). -/
def calculate_percentiles (latencies : List ℚ) : LatencyPercentiles :=
  if latencies.isEmpty then ⟨0, 0, 0, 0, 0, 0⟩
  else
    let sorted := latencies.mergeSort fun a b => decide (a ≤ b)
    { median := roundTo 3 (percentile_interp sorted (1/2))
      p75 := roundTo 3 (percentile_interp sorted (3/4))
      p99 := roundTo 3 (percentile_interp sorted (99/100))
      min := roundTo 3 (list_min latencies)
      max := roundTo 3 (list_max latencies)
      avg := roundTo 3 (latencies.sum / (latencies.length : ℚ)) }

/-! ## Judge-result handling (`TurnAccuracyValidator` and
`ComparisonOrchestrator._process_simulation_result`) -/

/-- The three scores of `_validate_conversation_comprehensive`'s result dict
(reasoning strings are metadata, not modelled). -/
structure JudgeScores where
  accuracy : ℚ
  humanlike : ℚ
  outcome : ℚ
deriving DecidableEq, Repr

/-- Model of `_default_comprehensive_result`: the scores substituted when the judge
LLM call fails, returns unusable content, or misses a required field. -/
def default_comprehensive_result : JudgeScores := ⟨5, 5, 5⟩

/-- Model of `_validate_conversation_comprehensive`: the LLM call either yields a
usable score dict (`some`) or fails in any of the ways caught internally
(`none`), in which case the documented default is substituted. -/
def validate_conversation_comprehensive (llm : Option JudgeScores) : JudgeScores :=
  match llm with
  | some r => r
  | none => default_comprehensive_result

/-- The result dict of `validate_simulated_transcript` (the always-empty
`turn_accuracy` / `least_accurate_turns` compatibility lists are not
modelled). -/
structure ValidationOutput where
  humanlike_rating : Option ℚ
  overall_accuracy : Option ℚ
  outcome_orientation : Option ℚ
deriving DecidableEq, Repr

/-- Model of `validate_simulated_transcript`: empty transcripts yield all-`None`
scores; otherwise the comprehensive result is repackaged, with `accuracy`
rescaled from 0–10 to 0–1 and a falsy (zero) accuracy mapped to `None`. -/
def validate_simulated_transcript (turnsEmpty : Bool) (llm : Option JudgeScores) :
    ValidationOutput :=
  if turnsEmpty then ⟨none, none, none⟩
  else
    let r := validate_conversation_comprehensive llm
    ⟨some r.humanlike, if r.accuracy = 0 then none else some (r.accuracy / 10), some r.outcome⟩

/-- The simulator output consumed by `_process_simulation_result`: per-agent-
turn latencies in milliseconds and the turn count (the transcript text plays
no role in the numeric processing). -/
structure SimulationResult where
  latencies_ms : List ℚ
  total_turns : ℕ
deriving DecidableEq, Repr

inductive RunStatus
  | pending
  | running
  | completed
  | failed
deriving DecidableEq, Repr

/-- The fields of the `AgentComparisonRun` record written by
`_process_simulation_result`. -/
structure RunRecord where
  status : RunStatus
  latency_median : Option ℚ
  latency_p75 : Option ℚ
  latency_p99 : Option ℚ
  overall_accuracy : Option ℚ
  humanlike_rating : Option ℚ
  outcome_orientation : Option ℚ
  total_turns : Option ℕ
deriving DecidableEq, Repr

/-- Model of `_process_simulation_result`.  Here `judge` is the outcome of the awaited
`validate_simulated_transcript` call: `Except.ok` carries its result dict,
`Except.error` models the call raising (the path handled by the
`except` block, which nulls the accuracy results and defaults the outcome
score to 5.0).  When no validator is available the accuracy results stay
empty and the outcome score stays `None`.  Latencies are converted from
milliseconds to seconds before the percentile computation. -/
def process_simulation_result (validator_available : Bool)
    (judge : Except Unit ValidationOutput) (sim : SimulationResult) : RunRecord :=
  let structured := sim.latencies_ms.map (· / 1000)
  let pc := calculate_percentiles structured
  let ar : ValidationOutput × Option ℚ :=
    if validator_available then
      match judge with
      | .ok v => (v, v.outcome_orientation)
      | .error _ => (⟨none, none, none⟩, some 5)
    else (⟨none, none, none⟩, none)
  { status := .completed
    latency_median := some pc.median
    latency_p75 := some pc.p75
    latency_p99 := some pc.p99
    overall_accuracy := ar.1.overall_accuracy
    humanlike_rating := ar.1.humanlike_rating
    outcome_orientation := ar.2
    total_turns := some sim.total_turns }

/-! ## Composite score (`ComparisonOrchestrator._calculate_composite_score`) -/

/-- One metric's contribution to the composite-score accumulators: the source
adds `value * weight` to `weighted_sum` and `weight` to `total_weight` when
the metric is present and skips both updates when it is `None`. -/
def metric_term (w : ℚ) (v : Option ℚ) : ℚ × ℚ :=
  match v with
  | some x => (x * w, w)
  | none => (0, 0)

/-- Model of `_calculate_composite_score` on the run's metric fields: accuracy (0–1,
rescaled ×10) at weight 0.3, humanlike at 0.3, outcome at 0.3, and a hangup
bonus (10 when the run ended before `maxTurns`, else 0) at 0.1; the weighted
sum is divided by the total weight of the metrics present, rounded to two
decimals; 0.0 when every metric is missing. -/
def calculate_composite_score (maxTurns : ℕ) (acc hum outc : Option ℚ)
    (turns : Option ℕ) : ℚ :=
  let s1 := metric_term (3/10) (acc.map fun a => a * 10)
  let s2 := metric_term (3/10) hum
  let s3 := metric_term (3/10) outc
  let s4 := metric_term (1/10) (turns.map fun t => if t < maxTurns then (10 : ℚ) else 0)
  let ws := s1.1 + s2.1 + s3.1 + s4.1
  let tw := s1.2 + s2.2 + s3.2 + s4.2
  if tw = 0 then 0 else roundTo 2 (ws / tw)

/-- The composite score exactly as the specification states it, for comparison
with `calculate_composite_score`: the weighted blend divided by the sum of the
weights of the metrics actually present, with no rounding. -/
def claimed_composite_score (maxTurns : ℕ) (acc hum outc : Option ℚ)
    (turns : Option ℕ) : ℚ :=
  let s1 := metric_term (3/10) (acc.map fun a => a * 10)
  let s2 := metric_term (3/10) hum
  let s3 := metric_term (3/10) outc
  let s4 := metric_term (1/10) (turns.map fun t => if t < maxTurns then (10 : ℚ) else 0)
  (s1.1 + s2.1 + s3.1 + s4.1) / (s1.2 + s2.2 + s3.2 + s4.2)

/-! ## Per-agent aggregation and the comparison driver -/

/-- The per-run metrics dict returned by `_run_single_simulation` for
aggregation.  `composite_score` is always computed for a successful run, so it
is not optional. -/
structure RunMetrics where
  latency_median : Option ℚ
  latency_p75 : Option ℚ
  latency_p99 : Option ℚ
  overall_accuracy : Option ℚ
  humanlike_rating : Option ℚ
  outcome_orientation : Option ℚ
  total_turns : Option ℕ
  composite_score : ℚ
deriving DecidableEq, Repr

/-- The metrics dict built from a processed run record. -/
def run_metrics_of (maxTurns : ℕ) (r : RunRecord) : RunMetrics :=
  { latency_median := r.latency_median
    latency_p75 := r.latency_p75
    latency_p99 := r.latency_p99
    overall_accuracy := r.overall_accuracy
    humanlike_rating := r.humanlike_rating
    outcome_orientation := r.outcome_orientation
    total_turns := r.total_turns
    composite_score := calculate_composite_score maxTurns r.overall_accuracy
      r.humanlike_rating r.outcome_orientation r.total_turns }

def qmean (l : List ℚ) : ℚ := l.sum / (l.length : ℚ)

/-- Population variance, so that `np.std l = sqrt (qvariance l)`. -/
def qvariance (l : List ℚ) : ℚ := (l.map fun x => (x - qmean l) ^ 2).sum / (l.length : ℚ)

def stat_mean (l : List ℚ) : Option ℚ := if l.isEmpty then none else some (qmean l)

def stat_std (sqrtQ : ℚ → ℚ) (l : List ℚ) : Option ℚ :=
  if l.isEmpty then none else some (sqrtQ (qvariance l))

def stat_min (l : List ℚ) : Option ℚ := if l.isEmpty then none else some (list_min l)

def stat_max (l : List ℚ) : Option ℚ := if l.isEmpty then none else some (list_max l)

/-- The statistics dict returned by `_aggregate_simulation_results`.
`np.std` computes a floating-point square root; the square root enters the
model as the parameter `sqrtQ`. -/
structure AggregateStats where
  latency_median_mean : Option ℚ
  latency_median_std : Option ℚ
  latency_p75_mean : Option ℚ
  latency_p75_std : Option ℚ
  latency_p99_mean : Option ℚ
  latency_p99_std : Option ℚ
  accuracy_mean : Option ℚ
  accuracy_std : Option ℚ
  accuracy_min : Option ℚ
  accuracy_max : Option ℚ
  humanlike_mean : Option ℚ
  humanlike_std : Option ℚ
  humanlike_min : Option ℚ
  humanlike_max : Option ℚ
  outcome_mean : Option ℚ
  outcome_std : Option ℚ
  outcome_min : Option ℚ
  outcome_max : Option ℚ
  composite_score_mean : Option ℚ
  composite_score_std : Option ℚ
  avg_turns_mean : Option ℚ
  avg_turns_std : Option ℚ
  hangup_success_rate : ℚ
deriving DecidableEq, Repr

/-- Model of `_aggregate_simulation_results` over the successful runs: per metric,
collect the non-`None` values and take mean/std (and min/max where the source
does); hangup successes are runs whose turn count stayed below
`settings.max_conversation_turns`. -/
def aggregate_simulation_results (sqrtQ : ℚ → ℚ) (maxTurns : ℕ)
    (results : List RunMetrics) : AggregateStats :=
  let medians := results.filterMap (·.latency_median)
  let p75s := results.filterMap (·.latency_p75)
  let p99s := results.filterMap (·.latency_p99)
  let accuracies := results.filterMap (·.overall_accuracy)
  let humanlikes := results.filterMap (·.humanlike_rating)
  let outcomes := results.filterMap (·.outcome_orientation)
  let turns := results.filterMap fun r => r.total_turns.map (fun n => (n : ℚ))
  let composites := results.map (·.composite_score)
  let hangup_successes := results.countP fun r => r.total_turns.getD maxTurns < maxTurns
  let hangup_rate := if results.isEmpty then 0 else (hangup_successes : ℚ) / (results.length : ℚ)
  { latency_median_mean := stat_mean medians
    latency_median_std := stat_std sqrtQ medians
    latency_p75_mean := stat_mean p75s
    latency_p75_std := stat_std sqrtQ p75s
    latency_p99_mean := stat_mean p99s
    latency_p99_std := stat_std sqrtQ p99s
    accuracy_mean := stat_mean accuracies
    accuracy_std := stat_std sqrtQ accuracies
    accuracy_min := stat_min accuracies
    accuracy_max := stat_max accuracies
    humanlike_mean := stat_mean humanlikes
    humanlike_std := stat_std sqrtQ humanlikes
    humanlike_min := stat_min humanlikes
    humanlike_max := stat_max humanlikes
    outcome_mean := stat_mean outcomes
    outcome_std := stat_std sqrtQ outcomes
    outcome_min := stat_min outcomes
    outcome_max := stat_max outcomes
    composite_score_mean := stat_mean composites
    composite_score_std := stat_std sqrtQ composites
    avg_turns_mean := stat_mean turns
    avg_turns_std := stat_std sqrtQ turns
    hangup_success_rate := roundTo 3 hangup_rate }

/-- The aggregate record stored per agent (`AgentComparisonAggregate` columns
written by `_store_aggregate_result`; absent dict keys are read back with
`.get(...)`, i.e. as `None`). -/
structure AggregateData where
  agent_id : String
  agent_name : String
  total_simulations : ℕ
  successful_simulations : ℕ
  failed_simulations : ℕ
  error : Option String
  latency_median_mean : Option ℚ
  latency_median_std : Option ℚ
  latency_p75_mean : Option ℚ
  latency_p75_std : Option ℚ
  latency_p99_mean : Option ℚ
  latency_p99_std : Option ℚ
  accuracy_mean : Option ℚ
  accuracy_std : Option ℚ
  accuracy_min : Option ℚ
  accuracy_max : Option ℚ
  humanlike_mean : Option ℚ
  humanlike_std : Option ℚ
  humanlike_min : Option ℚ
  humanlike_max : Option ℚ
  outcome_mean : Option ℚ
  outcome_std : Option ℚ
  outcome_min : Option ℚ
  outcome_max : Option ℚ
  composite_score_mean : Option ℚ
  composite_score_std : Option ℚ
  avg_turns_mean : Option ℚ
  avg_turns_std : Option ℚ
  hangup_success_rate : Option ℚ
deriving DecidableEq, Repr

/-- Model of `_run_multi_simulation_for_agent` after the `asyncio.gather(...,
return_exceptions=True)` join: each element of `outcomes` is either a
successful run's metrics dict (`some`) or a raised exception (`none`).  With
no successful run the explicit all-failed record is returned (counts, the
`"All simulations failed"` marker, and no statistics); otherwise the
aggregated statistics are merged with the identity and count fields. -/
def run_multi_simulation_for_agent (sqrtQ : ℚ → ℚ) (maxTurns : ℕ)
    (agent_id agent_name : String) (outcomes : List (Option RunMetrics)) : AggregateData :=
  let successful := outcomes.filterMap id
  let failedCount := outcomes.countP (·.isNone)
  if successful.isEmpty then
    { agent_id := agent_id, agent_name := agent_name
      total_simulations := outcomes.length, successful_simulations := 0
      failed_simulations := outcomes.length, error := some "All simulations failed"
      latency_median_mean := none, latency_median_std := none
      latency_p75_mean := none, latency_p75_std := none
      latency_p99_mean := none, latency_p99_std := none
      accuracy_mean := none, accuracy_std := none, accuracy_min := none, accuracy_max := none
      humanlike_mean := none, humanlike_std := none, humanlike_min := none, humanlike_max := none
      outcome_mean := none, outcome_std := none, outcome_min := none, outcome_max := none
      composite_score_mean := none, composite_score_std := none
      avg_turns_mean := none, avg_turns_std := none
      hangup_success_rate := none }
  else
    let st := aggregate_simulation_results sqrtQ maxTurns successful
    { agent_id := agent_id, agent_name := agent_name
      total_simulations := outcomes.length, successful_simulations := successful.length
      failed_simulations := failedCount, error := none
      latency_median_mean := st.latency_median_mean, latency_median_std := st.latency_median_std
      latency_p75_mean := st.latency_p75_mean, latency_p75_std := st.latency_p75_std
      latency_p99_mean := st.latency_p99_mean, latency_p99_std := st.latency_p99_std
      accuracy_mean := st.accuracy_mean, accuracy_std := st.accuracy_std
      accuracy_min := st.accuracy_min, accuracy_max := st.accuracy_max
      humanlike_mean := st.humanlike_mean, humanlike_std := st.humanlike_std
      humanlike_min := st.humanlike_min, humanlike_max := st.humanlike_max
      outcome_mean := st.outcome_mean, outcome_std := st.outcome_std
      outcome_min := st.outcome_min, outcome_max := st.outcome_max
      composite_score_mean := st.composite_score_mean
      composite_score_std := st.composite_score_std
      avg_turns_mean := st.avg_turns_mean, avg_turns_std := st.avg_turns_std
      hangup_success_rate := some st.hangup_success_rate }

/-- The agent configuration dict fetched from Bolna (the fields read by
`execute_comparison`). -/
structure AgentConfig where
  agent_id : String
  agent_name : String
  llm_family : String
  supported : Bool
deriving DecidableEq, Repr

/-- Model of `execute_comparison` (the aggregate-producing core): fetch one config per
requested agent id, reject the whole comparison when any agent is unsupported,
otherwise produce one aggregate record per agent.  `simulate` abstracts the
per-agent batch of simulation tasks (LLM-driven, external). -/
def execute_comparison (sqrtQ : ℚ → ℚ) (maxTurns : ℕ) (agent_ids : List String)
    (fetch : String → AgentConfig) (simulate : AgentConfig → List (Option RunMetrics)) :
    Except String (List AggregateData) :=
  let configs := agent_ids.map fetch
  if configs.any (fun c => !c.supported) then
    Except.error "Only OpenAI models supported"
  else
    Except.ok (configs.map fun c =>
      run_multi_simulation_for_agent sqrtQ maxTurns c.agent_id c.agent_name (simulate c))

/-! ## Ranking (`aggregate_comparison_results`) -/

/-- The sort key of `aggregate_comparison_results`: composite mean (`0.0` when
`None`) and negated latency-median mean (`999` when `None`); Python sorts this
pair descending (`reverse=True`), so equal composites break ties by lower
latency. -/
def rank_key (a : AggregateData) : ℚ × ℚ :=
  (a.composite_score_mean.getD 0, -(a.latency_median_mean.getD 999))

/-- The descending lexicographic comparison realised by
`sorted(..., key=rank_key, reverse=True)`. -/
def ranking_le (a b : AggregateData) : Bool :=
  decide ((rank_key b).1 < (rank_key a).1 ∨
    ((rank_key b).1 = (rank_key a).1 ∧ (rank_key b).2 ≤ (rank_key a).2))

/-- The ranking pass: a stable sort of the aggregate records by descending
`(composite mean, −latency mean)`; Python's stable `sorted` is embedded as the
stable `mergeSort`. -/
def rank_aggregates (aggs : List AggregateData) : List AggregateData :=
  aggs.mergeSort ranking_le

/-! ## Concurrency model of the simulation fan-out

`execute_comparison` gathers one `_run_multi_simulation_for_agent` task per
agent; each of those creates its own `asyncio.Semaphore(max_concurrent)` and
runs its `num_simulations` tasks under it.  The scheduling is modelled as a
transition system: the state is the list of currently running simulation
tasks, a task may start only while fewer than `cap` tasks of the same agent
are running (that agent's semaphore has a free slot), and any running task may
finish. -/

/-- One simulation task, identified by its agent index and simulation
number. -/
structure SimTask where
  agent : ℕ
  sim : ℕ
deriving DecidableEq, Repr

/-- The scheduler transitions available under the per-agent semaphores of
`_run_multi_simulation_for_agent`. -/
inductive SemStep (numAgents numSims cap : ℕ) : List SimTask → List SimTask → Prop
  | start (t : SimTask) (s : List SimTask) :
      t.agent < numAgents → t.sim < numSims → t ∉ s →
      s.countP (fun u => u.agent == t.agent) < cap →
      SemStep numAgents numSims cap s (t :: s)
  | finish (t : SimTask) (s₁ s₂ : List SimTask) :
      SemStep numAgents numSims cap (s₁ ++ t :: s₂) (s₁ ++ s₂)

/-- The running-task states reachable from the idle state. -/
def SemReachable (numAgents numSims cap : ℕ) (s : List SimTask) : Prop :=
  Relation.ReflTransGen (SemStep numAgents numSims cap) [] s

/-! ## Helper lemmas -/

theorem filter_length_split {α : Type} (p : α → Bool) (l : List α) :
    (l.filter p).length + (l.filter fun a => !p a).length = l.length := by
  induction l with
  | nil => simp
  | cons x xs ih =>
    by_cases h : p x <;> simp [List.filter_cons, h] <;> omega

theorem dedup_keep_pairwise {α : Type} (isDup : α → α → Bool) (l : List α) :
    ∀ acc : List α, acc.Pairwise (fun a b => isDup b a = false) →
      (dedup_keep isDup acc l).Pairwise fun a b => isDup b a = false := by
  induction l with
  | nil => intro acc hacc; simpa [dedup_keep] using hacc
  | cons x rest ih =>
    intro acc hacc
    by_cases h : acc.any (fun e => isDup x e)
    · simpa [dedup_keep, h] using ih acc hacc
    · have hfalse : acc.any (fun e => isDup x e) = false := by simpa using h
      simp only [dedup_keep, hfalse, Bool.false_eq_true, if_false]
      apply ih
      rw [List.pairwise_append]
      refine ⟨hacc, by simp, ?_⟩
      intro a ha b hb
      simp only [List.mem_singleton] at hb
      subst hb
      simpa using List.any_eq_false.mp hfalse a ha

theorem dedup_keep_of_pairwise {α : Type} (isDup : α → α → Bool) (l : List α) :
    ∀ acc : List α, (acc ++ l).Pairwise (fun a b => isDup b a = false) →
      dedup_keep isDup acc l = acc ++ l := by
  induction l with
  | nil => intro acc _; simp [dedup_keep]
  | cons x rest ih =>
    intro acc h
    have hx : acc.any (fun e => isDup x e) = false := by
      rw [List.any_eq_false]
      intro e he
      have := (List.pairwise_append.mp h).2.2 e he x (by simp)
      simp [this]
    simp only [dedup_keep, hx, Bool.false_eq_true, if_false]
    have h' : ((acc ++ [x]) ++ rest).Pairwise (fun a b => isDup b a = false) := by
      simpa [List.append_assoc] using h
    rw [ih (acc ++ [x]) h', List.append_assoc]
    simp

theorem dedup_keep_idem {α : Type} (isDup : α → α → Bool) (l : List α) :
    dedup_keep isDup [] (dedup_keep isDup [] l) = dedup_keep isDup [] l := by
  have := dedup_keep_of_pairwise isDup (dedup_keep isDup [] l) []
    (by simpa using dedup_keep_pairwise isDup l [] (by simp))
  simpa using this

/-! ## C1 — conversation health score -/

/-- C1 (counterexample): the claimed formula charges an agent-delay pause only
its 15-point deduction, but `_calculate_health_score` also counts every
agent-delay pause in the general 5-points-per-pause deduction.  One agent-delay
pause and nothing else gives 80 in the code, 85 under the claim. -/
theorem health_score_claim_cx :
    calculate_health_score [⟨0, 1, 1, PauseType.agent_delay, Severity.high, none⟩] []
        ⟨false, false, false, false, false, []⟩ = 80 ∧
    claimed_health_score [⟨0, 1, 1, PauseType.agent_delay, Severity.high, none⟩] []
        ⟨false, false, false, false, false, []⟩ = 85 ∧
    calculate_health_score [⟨0, 1, 1, PauseType.agent_delay, Severity.high, none⟩] []
        ⟨false, false, false, false, false, []⟩ ≠
      claimed_health_score [⟨0, 1, 1, PauseType.agent_delay, Severity.high, none⟩] []
        ⟨false, false, false, false, false, []⟩ := by
  refine ⟨by decide, by decide, by decide⟩

/-- C1 (amended): the health score equals 100 minus 20 per agent_delay pause
(15 from the agent-delay deduction plus 5 from the all-pauses deduction),
minus 5 per non-agent_delay pause, minus 10 per interruption, minus 20 per
termination issue, floored at 0. -/
theorem health_score_amended (pauses : List Pause) (interruptions : List Interruption)
    (termination : TerminationAnalysis) :
    calculate_health_score pauses interruptions termination =
      max 0 (100 - 20 * ((pauses.filter fun p => p.ptype = PauseType.agent_delay).length : ℤ)
        - 5 * ((pauses.filter fun p => ¬ p.ptype = PauseType.agent_delay).length : ℤ)
        - 10 * (interruptions.length : ℤ) - 20 * (termination.issues.length : ℤ)) := by
  unfold calculate_health_score
  have hsplit := filter_length_split (fun p => decide (p.ptype = PauseType.agent_delay)) pauses
  have hneg : (pauses.filter fun p => ¬ p.ptype = PauseType.agent_delay) =
      (pauses.filter fun p => !decide (p.ptype = PauseType.agent_delay)) := by
    apply List.filter_congr
    intro p _
    simp [decide_not]
  have hlen : (pauses.length : ℤ) =
      ((pauses.filter fun p => decide (p.ptype = PauseType.agent_delay)).length : ℤ) +
      ((pauses.filter fun p => !decide (p.ptype = PauseType.agent_delay)).length : ℤ) := by
    exact_mod_cast hsplit.symm
  rw [hneg, hlen]
  ring_nf

/-! ## C8 — de-duplication is idempotent -/

/-- C8: both de-duplication passes are idempotent: applying
`_deduplicate_pauses` (duplicate = start times within 0.5 s and durations
within 0.5 s) or `_deduplicate_interruptions` (duplicate = times within 0.1 s)
to its own output returns that output unchanged. -/
theorem deduplication_idempotent :
    (∀ ps : List Pause, deduplicate_pauses (deduplicate_pauses ps) = deduplicate_pauses ps) ∧
    (∀ l : List Interruption,
      deduplicate_interruptions (deduplicate_interruptions l) = deduplicate_interruptions l) :=
  ⟨fun ps => dedup_keep_idem pause_is_dup ps, fun l => dedup_keep_idem interruption_is_dup l⟩

/-! ## Rounding lemmas -/

theorem roundHalfEven_bounds (x : ℚ) (M : ℤ) (h0 : 0 ≤ x) (hM : x ≤ (M : ℚ)) :
    0 ≤ roundHalfEven x ∧ roundHalfEven x ≤ M := by
  unfold roundHalfEven
  dsimp only
  have hfl0 : 0 ≤ ⌊x⌋ := Int.floor_nonneg.mpr h0
  have hflM : ⌊x⌋ ≤ M := by
    have := Int.floor_le_floor hM
    simpa using this
  have hfr : (⌊x⌋ : ℚ) ≤ x := Int.floor_le x
  split_ifs with h1 h2 h3
  · exact ⟨hfl0, hflM⟩
  · refine ⟨by omega, ?_⟩
    by_contra hcon
    push_neg at hcon
    have heq : ⌊x⌋ = M := le_antisymm hflM (by omega)
    have heqq : ((⌊x⌋ : ℤ) : ℚ) = (M : ℚ) := by exact_mod_cast heq
    linarith
  · exact ⟨hfl0, hflM⟩
  · refine ⟨by omega, ?_⟩
    by_contra hcon
    push_neg at hcon
    have heq : ⌊x⌋ = M := le_antisymm hflM (by omega)
    have heqq : ((⌊x⌋ : ℤ) : ℚ) = (M : ℚ) := by exact_mod_cast heq
    push_neg at h1
    linarith

theorem roundTo_bounds (d : ℕ) (x : ℚ) (h0 : 0 ≤ x) (h1 : x ≤ 10) :
    0 ≤ roundTo d x ∧ roundTo d x ≤ 10 := by
  unfold roundTo
  have hpow : (0 : ℚ) < 10 ^ d := by positivity
  have hb := roundHalfEven_bounds (x * 10 ^ d) (10 * 10 ^ d)
    (by positivity) (by push_cast; nlinarith)
  constructor
  · exact div_nonneg (by exact_mod_cast hb.1) hpow.le
  · rw [div_le_iff₀ hpow]
    calc (roundHalfEven (x * 10 ^ d) : ℚ) ≤ ((10 * 10 ^ d : ℤ) : ℚ) := by exact_mod_cast hb.2
    _ = 10 * 10 ^ d := by push_cast; ring

theorem roundTo_zero (d : ℕ) : roundTo d 0 = 0 := by
  unfold roundTo roundHalfEven
  norm_num

theorem comp_bounds_of (ws tw : ℚ) (htw : 0 < tw) (h0 : 0 ≤ ws) (h1 : ws ≤ 10 * tw) :
    0 ≤ roundTo 2 (ws / tw) ∧ roundTo 2 (ws / tw) ≤ 10 :=
  roundTo_bounds 2 _ (div_nonneg h0 htw.le) ((div_le_iff₀ htw).mpr (by linarith))

/-! ## C2 — composite score -/

theorem metric_term_bounds (w : ℚ) (v : Option ℚ) (hw : 0 ≤ w)
    (hv : ∀ x, v = some x → 0 ≤ x ∧ x ≤ 10) :
    0 ≤ (metric_term w v).1 ∧ (metric_term w v).1 ≤ 10 * (metric_term w v).2 ∧
      0 ≤ (metric_term w v).2 := by
  rcases v with _ | x
  · simp [metric_term]
  · obtain ⟨h0, h1⟩ := hv x rfl
    exact ⟨mul_nonneg h0 hw, mul_le_mul_of_nonneg_right h1 hw, hw⟩

/-- C2 (counterexample): `_calculate_composite_score` rounds the renormalized
blend to two decimals (`round(weighted_sum / total_weight, 2)`), so it does not
equal the blend itself: with only a humanlike rating of 5.125 present, the
blend is 5.125 but the composite score is 5.12. -/
theorem composite_score_claim_cx :
    calculate_composite_score 10 none (some (41/8)) none none = 128/25 ∧
    claimed_composite_score 10 none (some (41/8)) none none = 41/8 ∧
    calculate_composite_score 10 none (some (41/8)) none none ≠
      claimed_composite_score 10 none (some (41/8)) none none := by
  refine ⟨?_, ?_, ?_⟩ <;>
    norm_num [calculate_composite_score, claimed_composite_score, metric_term,
      roundTo, roundHalfEven]

/-- C2 (amended): the composite score equals the weighted blend
accuracy(×10)·0.3 + humanlike·0.3 + outcome·0.3 + hangup·0.1 divided by the
sum of the weights of the metrics actually present, *rounded to two decimal
places* (and 0.0 when no metric is present); consequently, whenever each
present metric lies in its range (accuracy in [0,1], humanlike and outcome in
[0,10]), the composite score lies in [0,10] even when one or more metrics are
missing, and is never reduced by a missing component's full weight. -/
theorem composite_score_amended (maxTurns : ℕ) (acc hum outc : Option ℚ) (turns : Option ℕ)
    (hacc : ∀ a, acc = some a → 0 ≤ a ∧ a ≤ 1)
    (hhum : ∀ h, hum = some h → 0 ≤ h ∧ h ≤ 10)
    (houtc : ∀ o, outc = some o → 0 ≤ o ∧ o ≤ 10) :
    calculate_composite_score maxTurns acc hum outc turns =
      roundTo 2 (claimed_composite_score maxTurns acc hum outc turns) ∧
    0 ≤ calculate_composite_score maxTurns acc hum outc turns ∧
    calculate_composite_score maxTurns acc hum outc turns ≤ 10 := by
  have b1 := metric_term_bounds (3/10) (acc.map fun a => a * 10) (by norm_num) (by
    intro x hx
    rcases Option.map_eq_some'.mp hx with ⟨a, ha, rfl⟩
    obtain ⟨h0, h1⟩ := hacc a ha
    constructor <;> nlinarith)
  have b2 := metric_term_bounds (3/10) hum (by norm_num) hhum
  have b3 := metric_term_bounds (3/10) outc (by norm_num) houtc
  have b4 := metric_term_bounds (1/10)
      (turns.map fun t => if t < maxTurns then (10 : ℚ) else 0) (by norm_num) (by
    intro x hx
    rcases Option.map_eq_some'.mp hx with ⟨t, ht, rfl⟩
    split_ifs <;> norm_num)
  unfold calculate_composite_score claimed_composite_score
  dsimp only
  by_cases htw : (metric_term (3/10) (acc.map fun a => a * 10)).2 +
      (metric_term (3/10) hum).2 + (metric_term (3/10) outc).2 +
      (metric_term (1/10) (turns.map fun t => if t < maxTurns then (10 : ℚ) else 0)).2 = 0
  · rw [if_pos htw, htw, div_zero, roundTo_zero]
    norm_num
  · rw [if_neg htw]
    have hge : (0:ℚ) ≤ (metric_term (3/10) (acc.map fun a => a * 10)).2 +
        (metric_term (3/10) hum).2 + (metric_term (3/10) outc).2 +
        (metric_term (1/10) (turns.map fun t => if t < maxTurns then (10 : ℚ) else 0)).2 := by
      linarith [b1.2.2, b2.2.2, b3.2.2, b4.2.2]
    have htw' := lt_of_le_of_ne hge (Ne.symm htw)
    exact ⟨rfl, comp_bounds_of _ _ htw'
      (by linarith [b1.1, b2.1, b3.1, b4.1])
      (by linarith [b1.2.1, b2.2.1, b3.2.1, b4.2.1])⟩

/-- C2 (witness): the amended theorem applied at a concrete run — accuracy
0.8, humanlike 7, outcome missing, 12 turns against a 10-turn cap. -/
theorem composite_score_amended_witness :
    (∀ a, (some (4/5) : Option ℚ) = some a → 0 ≤ a ∧ a ≤ 1) ∧
    (∀ h, (some 7 : Option ℚ) = some h → 0 ≤ h ∧ h ≤ 10) ∧
    (∀ o, (none : Option ℚ) = some o → 0 ≤ o ∧ o ≤ 10) ∧
    (calculate_composite_score 10 (some (4/5)) (some 7) none (some 12) =
        roundTo 2 (claimed_composite_score 10 (some (4/5)) (some 7) none (some 12)) ∧
      0 ≤ calculate_composite_score 10 (some (4/5)) (some 7) none (some 12) ∧
      calculate_composite_score 10 (some (4/5)) (some 7) none (some 12) ≤ 10) := by
  have h1 : ∀ a, (some (4/5) : Option ℚ) = some a → 0 ≤ a ∧ a ≤ 1 := by
    intro a ha
    obtain rfl : (4/5 : ℚ) = a := by simpa using ha
    norm_num
  have h2 : ∀ h, (some 7 : Option ℚ) = some h → 0 ≤ h ∧ h ≤ 10 := by
    intro h hh
    obtain rfl : (7 : ℚ) = h := by simpa using hh
    norm_num
  have h3 : ∀ o, (none : Option ℚ) = some o → 0 ≤ o ∧ o ≤ 10 := by
    intro o ho
    simp at ho
  exact ⟨h1, h2, h3, composite_score_amended 10 (some (4/5)) (some 7) none (some 12) h1 h2 h3⟩

/-! ## C3 — judge-failure defaults -/

/-- C3 (counterexample): when the validation call raises and the orchestrator's
`except` handler runs, `overall_accuracy` and `humanlike_rating` are set to
`None`, not to the default 5.0; only `outcome_orientation` receives 5.0.  So
not all three judge scores are substituted with 5.0. -/
theorem judge_failure_claim_cx :
    (process_simulation_result true (Except.error ()) ⟨[], 3⟩).overall_accuracy = none ∧
    (process_simulation_result true (Except.error ()) ⟨[], 3⟩).humanlike_rating = none ∧
    (process_simulation_result true (Except.error ()) ⟨[], 3⟩).outcome_orientation = some 5 ∧
    (process_simulation_result true (Except.error ()) ⟨[], 3⟩).humanlike_rating ≠ some 5 := by
  refine ⟨rfl, rfl, rfl, by simp [process_simulation_result]⟩

/-- C3 (amended): the degraded-result policy has two layers.  When the judge
LLM call itself fails, the validator substitutes 5.0 for all three scores
(accuracy stored as 0.5 on its 0–1 scale).  When the validation call raises
inside `_process_simulation_result`, the handler substitutes 5.0 for the
outcome score only, nulls `overall_accuracy` and `humanlike_rating`, and the
run still completes rather than aborting. -/
theorem judge_failure_policy (sim : SimulationResult) :
    ((process_simulation_result true (Except.error ()) sim).outcome_orientation = some 5 ∧
      (process_simulation_result true (Except.error ()) sim).overall_accuracy = none ∧
      (process_simulation_result true (Except.error ()) sim).humanlike_rating = none ∧
      (process_simulation_result true (Except.error ()) sim).status = RunStatus.completed) ∧
    validate_simulated_transcript false none =
      ⟨some 5, some (1/2), some 5⟩ := by
  constructor
  · exact ⟨rfl, rfl, rfl, rfl⟩
  · norm_num [validate_simulated_transcript, validate_conversation_comprehensive,
      default_comprehensive_result]

/-! ## C10 — empty latency list -/

/-- C10: `calculate_percentiles` on the empty latency list returns numeric
zeros for every field rather than nulls or an error; a completed run with no
agent turns therefore stores `latency_median = 0.0`, and that zero then
participates as a real value in the per-agent latency mean (the aggregation
collects it rather than skipping it as `None`). -/
theorem empty_latency_reports_zero :
    calculate_percentiles [] = ⟨0, 0, 0, 0, 0, 0⟩ ∧
    (∀ (va : Bool) (judge : Except Unit ValidationOutput) (n : ℕ),
      (process_simulation_result va judge ⟨[], n⟩).latency_median = some 0 ∧
      (process_simulation_result va judge ⟨[], n⟩).status = RunStatus.completed) ∧
    (∀ (sqrtQ : ℚ → ℚ) (maxTurns : ℕ) (r : RunMetrics) (rest : List RunMetrics),
      (aggregate_simulation_results sqrtQ maxTurns
          ({ r with latency_median := some 0 } :: rest)).latency_median_mean =
        some (qmean (0 :: rest.filterMap (·.latency_median)))) := by
  refine ⟨rfl, ?_, ?_⟩
  · intro va judge n
    exact ⟨rfl, rfl⟩
  · intro sqrtQ maxTurns r rest
    simp [aggregate_simulation_results, stat_mean, List.filterMap_cons]

/-! ## C5 — ranking order -/

theorem ranking_le_trans (a b c : AggregateData) (hab : ranking_le a b = true)
    (hbc : ranking_le b c = true) : ranking_le a c = true := by
  unfold ranking_le at *
  rw [decide_eq_true_iff] at *
  rcases hab with h1 | ⟨h1, h1'⟩ <;> rcases hbc with h2 | ⟨h2, h2'⟩
  · exact Or.inl (h2.trans h1)
  · exact Or.inl (lt_of_le_of_lt (le_of_eq h2) h1)
  · exact Or.inl (lt_of_lt_of_le h2 (le_of_eq h1))
  · exact Or.inr ⟨h2.trans h1, h2'.trans h1'⟩

theorem ranking_le_total (a b : AggregateData) :
    (ranking_le a b || ranking_le b a) = true := by
  unfold ranking_le
  rw [Bool.or_eq_true, decide_eq_true_iff, decide_eq_true_iff]
  rcases lt_trichotomy (rank_key b).1 (rank_key a).1 with h | h | h
  · exact Or.inl (Or.inl h)
  · rcases le_total (rank_key b).2 (rank_key a).2 with h' | h'
    · exact Or.inl (Or.inr ⟨h, h'⟩)
    · exact Or.inr (Or.inr ⟨h.symm, h'⟩)
  · exact Or.inr (Or.inl h)

/-- C5: the ranking pass is the (deterministic, stable) sort of the aggregate
records by composite-score mean descending; any record placed before another
has a composite mean at least as large, and when the two composite means are
equal the earlier record has the lower (or equal) latency-median mean — so of
two agents with equal composite mean, the one with lower latency_median_mean
receives the better rank.  The output is a permutation of the input, so no
agent is dropped or duplicated. -/
theorem ranking_by_composite_then_latency (aggs : List AggregateData) :
    (rank_aggregates aggs).Pairwise (fun a b =>
      b.composite_score_mean.getD 0 ≤ a.composite_score_mean.getD 0 ∧
      (a.composite_score_mean.getD 0 = b.composite_score_mean.getD 0 →
        a.latency_median_mean.getD 999 ≤ b.latency_median_mean.getD 999)) ∧
    (rank_aggregates aggs).Perm aggs := by
  constructor
  · have hs := List.sorted_mergeSort ranking_le_trans ranking_le_total aggs
    refine hs.imp ?_
    intro a b h
    unfold ranking_le at h
    rw [decide_eq_true_iff] at h
    unfold rank_key at h
    rcases h with h | ⟨h1, h2⟩
    · exact ⟨le_of_lt h, fun heq => absurd heq.symm (ne_of_lt h)⟩
    · refine ⟨le_of_eq h1, fun _ => by dsimp only at h2; linarith⟩
  · exact List.mergeSort_perm aggs ranking_le

/-! ## C4 — one aggregate record per requested agent -/

/-- Every statistical column of an aggregate record is null. -/
def all_stats_null (a : AggregateData) : Prop :=
  a.latency_median_mean = none ∧ a.latency_median_std = none ∧
  a.latency_p75_mean = none ∧ a.latency_p75_std = none ∧
  a.latency_p99_mean = none ∧ a.latency_p99_std = none ∧
  a.accuracy_mean = none ∧ a.accuracy_std = none ∧
  a.accuracy_min = none ∧ a.accuracy_max = none ∧
  a.humanlike_mean = none ∧ a.humanlike_std = none ∧
  a.humanlike_min = none ∧ a.humanlike_max = none ∧
  a.outcome_mean = none ∧ a.outcome_std = none ∧
  a.outcome_min = none ∧ a.outcome_max = none ∧
  a.composite_score_mean = none ∧ a.composite_score_std = none ∧
  a.avg_turns_mean = none ∧ a.avg_turns_std = none ∧
  a.hangup_success_rate = none

/-- C4: when every requested agent is supported, the comparison produces
exactly one aggregate record per requested agent id; and any record with zero
successful simulations (an agent all of whose simulations failed) still
carries the explicit "All simulations failed" marker with every statistical
field null, rather than being dropped. -/
theorem aggregate_record_per_agent (sqrtQ : ℚ → ℚ) (maxTurns : ℕ) (agent_ids : List String)
    (fetch : String → AgentConfig) (simulate : AgentConfig → List (Option RunMetrics))
    (hsupp : ∀ aid ∈ agent_ids, (fetch aid).supported = true) :
    ∃ aggs, execute_comparison sqrtQ maxTurns agent_ids fetch simulate = Except.ok aggs ∧
      aggs.length = agent_ids.length ∧
      ∀ a ∈ aggs, a.successful_simulations = 0 →
        a.error = some "All simulations failed" ∧ all_stats_null a := by
  have hany : (agent_ids.map fetch).any (fun c => !c.supported) = false := by
    rw [List.any_eq_false]
    intro c hc
    rcases List.mem_map.mp hc with ⟨aid, haid, rfl⟩
    simp [hsupp aid haid]
  refine ⟨(agent_ids.map fetch).map (fun c =>
    run_multi_simulation_for_agent sqrtQ maxTurns c.agent_id c.agent_name (simulate c)),
    ?_, ?_, ?_⟩
  · simp [execute_comparison, hany]
  · simp
  · intro a ha h0
    rcases List.mem_map.mp ha with ⟨c, hc, rfl⟩
    by_cases he : ((simulate c).filterMap id).isEmpty
    · simp [run_multi_simulation_for_agent, he, all_stats_null]
    · exfalso
      have he' : ((simulate c).filterMap id).isEmpty = false := by
        simpa using he
      simp [run_multi_simulation_for_agent, he'] at h0
      have hnil : (simulate c).filterMap id = [] := by
        rw [List.filterMap_eq_nil_iff]
        simpa using h0
      rw [hnil] at he'
      simp at he'

/-- C4 (witness): a concrete two-agent comparison in which both of agent-b's
simulations fail, applied to the theorem. -/
theorem aggregate_record_per_agent_witness :
    (∀ aid ∈ (["agent-a", "agent-b"] : List String),
      ((fun s => AgentConfig.mk s s "openai" true) aid).supported = true) ∧
    (∃ aggs, execute_comparison (fun q => q) 10 ["agent-a", "agent-b"]
        (fun s => AgentConfig.mk s s "openai" true) (fun _ => [none, none]) = Except.ok aggs ∧
      aggs.length = (["agent-a", "agent-b"] : List String).length ∧
      ∀ a ∈ aggs, a.successful_simulations = 0 →
        a.error = some "All simulations failed" ∧ all_stats_null a) :=
  have h : ∀ aid ∈ (["agent-a", "agent-b"] : List String),
      ((fun s => AgentConfig.mk s s "openai" true) aid).supported = true := fun _ _ => rfl
  ⟨h, aggregate_record_per_agent (fun q => q) 10 ["agent-a", "agent-b"]
    (fun s => AgentConfig.mk s s "openai" true) (fun _ => [none, none]) h⟩

/-! ## C6 — scenario B (pause classification) -/

/-- C6 (counterexample): speech segments [0 s, 2 s] and [6.5 s, 8 s] under
"normal" sensitivity give one pause of duration 4.5 s — but the source
classifies `medium_pause` only for gaps *strictly greater than* the 5.0 s
medium threshold, so this pause is a `short_pause` with severity low, not the
claimed `medium_pause` with severity medium. -/
theorem scenario_b_claim_cx :
    pause_thresholds "normal" = (4, 7, 5) ∧
    detect_pauses 4 7 5 [⟨0, 2⟩, ⟨13/2, 8⟩] (fun _ => none) [] =
      [⟨2, 13/2, 9/2, PauseType.short_pause, Severity.low, none⟩] ∧
    detect_pauses 4 7 5 [⟨0, 2⟩, ⟨13/2, 8⟩] (fun _ => none) [] ≠
      [⟨2, 13/2, 9/2, PauseType.medium_pause, Severity.medium, none⟩] := by
  have hval : detect_pauses 4 7 5 [⟨0, 2⟩, ⟨13/2, 8⟩] (fun _ => none) [] =
      [⟨2, 13/2, 9/2, PauseType.short_pause, Severity.low, none⟩] := by
    have hprim : primary_pauses 4 7 5 [⟨0, 2⟩, ⟨13/2, 8⟩] =
        [⟨2, 13/2, 9/2, PauseType.short_pause, Severity.low, none⟩] := by
      norm_num [primary_pauses, List.filterMap_cons, List.filterMap_nil]
    norm_num [detect_pauses, hprim, enhanced_pauses, deduplicate_pauses, dedup_keep,
      List.filterMap_cons, List.filterMap_nil]
  refine ⟨by simp [pause_thresholds], hval, ?_⟩
  rw [hval]
  simp

/-- C6 (amended): with detected segments exactly [0 s, 2 s] and [6.5 s, 8 s],
"normal" sensitivity (minimum 4.0 s, long 7.0 s, medium 5.0 s) and no
transcript, `detect_pauses` returns exactly one pause with start 2, end 6.5,
duration 4.5, of type `short_pause` with severity low (the 4.5 s gap does not
exceed the 5.0 s medium threshold), whatever the energy analysis of the gap
reports (an `enhanced_speech_gap` duplicate is removed by de-duplication). -/
theorem scenario_b_amended (energy_gap : ℕ → Option ℚ) :
    detect_pauses 4 7 5 [⟨0, 2⟩, ⟨13/2, 8⟩] energy_gap [] =
      [⟨2, 13/2, 9/2, PauseType.short_pause, Severity.low, none⟩] := by
  have hprim : primary_pauses 4 7 5 [⟨0, 2⟩, ⟨13/2, 8⟩] =
      [⟨2, 13/2, 9/2, PauseType.short_pause, Severity.low, none⟩] := by
    norm_num [primary_pauses, List.filterMap_cons, List.filterMap_nil]
  cases ht : energy_gap 0 with
  | none =>
    norm_num [detect_pauses, hprim, enhanced_pauses, ht, deduplicate_pauses, dedup_keep,
      List.filterMap_cons, List.filterMap_nil]
  | some c =>
    norm_num [detect_pauses, hprim, enhanced_pauses, ht, deduplicate_pauses, dedup_keep,
      pause_is_dup, List.filterMap_cons, List.filterMap_nil]

/-! ## C9 — simulation concurrency bound -/

theorem length_eq_sum_counts (n : ℕ) : ∀ s : List SimTask, (∀ t ∈ s, t.agent < n) →
    s.length = ∑ a ∈ Finset.range n, s.countP (fun u => u.agent == a) := by
  intro s
  induction s with
  | nil => intro _; simp
  | cons t ts ih =>
    intro hb
    have hbt : t.agent < n := hb t (List.mem_cons_self _ _)
    rw [List.length_cons, ih (fun u hu => hb u (List.mem_cons_of_mem _ hu))]
    have hcong : ∑ a ∈ Finset.range n, (t :: ts).countP (fun u => u.agent == a) =
        ∑ a ∈ Finset.range n,
          (ts.countP (fun u => u.agent == a) + if t.agent = a then 1 else 0) := by
      apply Finset.sum_congr rfl
      intro a _
      rw [List.countP_cons]
      congr 1
      simp [beq_iff_eq]
    rw [hcong, Finset.sum_add_distrib, Finset.sum_ite_eq (Finset.range n) t.agent fun _ => 1]
    simp [hbt]

theorem sem_invariant (numAgents numSims cap : ℕ) (s : List SimTask)
    (h : SemReachable numAgents numSims cap s) :
    (∀ t ∈ s, t.agent < numAgents) ∧
      (∀ a : ℕ, s.countP (fun u => u.agent == a) ≤ cap) := by
  induction h with
  | refl => simp
  | tail hab step ih =>
    cases step with
    | start t s' ht hsim hmem hcnt =>
      constructor
      · intro u hu
        rcases List.mem_cons.mp hu with rfl | hu
        · exact ht
        · exact ih.1 u hu
      · intro a
        rw [List.countP_cons]
        by_cases ha : (t.agent == a) = true
        · have hae : t.agent = a := by simpa using ha
          rw [hae] at hcnt
          simp only [ha, if_true]
          omega
        · simp [ha]
          exact ih.2 a
    | finish t s₁ s₂ =>
      constructor
      · intro u hu
        apply ih.1
        simp only [List.mem_append, List.mem_cons] at hu ⊢
        tauto
      · intro a
        have hthis := ih.2 a
        rw [List.countP_append, List.countP_cons] at hthis
        rw [List.countP_append]
        by_cases hp : (t.agent == a) = true <;> simp [hp] at hthis <;> omega

/-- C9 (counterexample): the simulations of different agents are not gated by
one global semaphore — each agent creates its own.  With two agents, one
simulation each and `max_concurrent_simulations = 1`, the state in which both
agents' simulations run simultaneously is reachable while the claimed global
bound is 1. -/
theorem global_semaphore_claim_cx :
    SemReachable 2 1 1 [⟨1, 0⟩, ⟨0, 0⟩] ∧
    ¬ (([⟨1, 0⟩, ⟨0, 0⟩] : List SimTask).length ≤ 1) := by
  have step1 : SemStep 2 1 1 [] [⟨0, 0⟩] :=
    SemStep.start ⟨0, 0⟩ [] (by decide) (by decide) (by simp) (by decide)
  have step2 : SemStep 2 1 1 [⟨0, 0⟩] [⟨1, 0⟩, ⟨0, 0⟩] :=
    SemStep.start ⟨1, 0⟩ [⟨0, 0⟩] (by decide) (by decide) (by decide) (by decide)
  exact ⟨Relation.ReflTransGen.tail (Relation.ReflTransGen.single step1) step2, by decide⟩

/-- C9 (amended): the semaphore is per agent (`asyncio.Semaphore(max_concurrent)`
is created inside `_run_multi_simulation_for_agent`), so every reachable
scheduler state runs at most `cap` simulations *per agent*, and at most
`numAgents * cap` simulations in total — not at most `cap` in total. -/
theorem per_agent_semaphore_bound (numAgents numSims cap : ℕ) (s : List SimTask)
    (h : SemReachable numAgents numSims cap s) :
    (∀ a : ℕ, s.countP (fun u => u.agent == a) ≤ cap) ∧ s.length ≤ numAgents * cap := by
  obtain ⟨hb, hc⟩ := sem_invariant numAgents numSims cap s h
  refine ⟨hc, ?_⟩
  calc s.length = ∑ a ∈ Finset.range numAgents, s.countP (fun u => u.agent == a) :=
        length_eq_sum_counts numAgents s hb
    _ ≤ ∑ _a ∈ Finset.range numAgents, cap := Finset.sum_le_sum fun a _ => hc a
    _ = numAgents * cap := by simp [Finset.sum_const, mul_comm]

/-- C9 (witness): the amended bound applied to a concrete reachable state: one
agent, one running simulation, capacity 1. -/
theorem per_agent_semaphore_bound_witness :
    SemReachable 1 1 1 [⟨0, 0⟩] ∧
    ((∀ a : ℕ, ([(⟨0, 0⟩ : SimTask)].countP (fun u => u.agent == a)) ≤ 1) ∧
      ([(⟨0, 0⟩ : SimTask)] : List SimTask).length ≤ 1 * 1) :=
  have hr : SemReachable 1 1 1 [⟨0, 0⟩] :=
    Relation.ReflTransGen.single
      (SemStep.start ⟨0, 0⟩ [] (by decide) (by decide) (by simp) (by decide))
  ⟨hr, per_agent_semaphore_bound 1 1 1 [⟨0, 0⟩] hr⟩

/-! ## C7 — speech-segment list invariants -/

theorem vad_walk_props (lastTime : ℚ) :
    ∀ (pairs : List (ℚ × Bool)) (st : Option ℚ),
      (pairs.map Prod.fst).Pairwise (· < ·) →
      (∀ t ∈ pairs.map Prod.fst, t ≤ lastTime) →
      (∀ u, st = some u → (∀ t ∈ pairs.map Prod.fst, u ≤ t) ∧ u ≤ lastTime) →
      (∀ s ∈ vad_walk lastTime pairs st, s.start ≤ s.endTime) ∧
      (vad_walk lastTime pairs st).Chain' (fun a b => a.endTime ≤ b.start) ∧
      (∀ lb : ℚ, (∀ t ∈ pairs.map Prod.fst, lb ≤ t) → (∀ u, st = some u → lb ≤ u) →
        ∀ s ∈ vad_walk lastTime pairs st, lb ≤ s.start) := by
  intro pairs
  induction pairs with
  | nil =>
    intro st hsorted hlast hst
    rcases st with _ | u
    · simp [vad_walk]
    · obtain ⟨-, hu⟩ := hst u rfl
      refine ⟨?_, ?_, ?_⟩
      · intro s hs
        simp only [vad_walk, List.mem_singleton] at hs
        subst hs
        exact hu
      · simp [vad_walk]
      · intro lb _ hlbst s hs
        simp only [vad_walk, List.mem_singleton] at hs
        subst hs
        exact hlbst u rfl
  | cons p rest ih =>
    obtain ⟨t, b⟩ := p
    intro st hsorted hlast hst
    simp only [List.map_cons] at hsorted hlast
    obtain ⟨hhd, hsorted'⟩ := List.pairwise_cons.mp hsorted
    have hlast' : ∀ x ∈ rest.map Prod.fst, x ≤ lastTime := fun x hx =>
      hlast x (List.mem_cons_of_mem _ hx)
    have htlast : t ≤ lastTime := hlast t (List.mem_cons_self _ _)
    rcases st with _ | u
    · by_cases hb : b
      · subst hb
        have hres := ih (some t) hsorted' hlast' (by
          intro u hu
          obtain rfl : t = u := by simpa using hu
          exact ⟨fun x hx => le_of_lt (hhd x hx), htlast⟩)
        simp only [vad_walk, if_true]
        refine ⟨hres.1, hres.2.1, ?_⟩
        intro lb hlb hlbst
        exact hres.2.2 lb (fun x hx => hlb x (List.mem_cons_of_mem _ hx)) (by
          intro u hu
          obtain rfl : t = u := by simpa using hu
          exact hlb t (List.mem_cons_self _ _))
      · simp only [Bool.not_eq_true] at hb
        subst hb
        have hres := ih none hsorted' hlast' (by simp)
        simp only [vad_walk, Bool.false_eq_true, if_false]
        refine ⟨hres.1, hres.2.1, ?_⟩
        intro lb hlb hlbst
        exact hres.2.2 lb (fun x hx => hlb x (List.mem_cons_of_mem _ hx)) (by simp)
    · obtain ⟨hule, hulast⟩ := hst u rfl
      have hut : u ≤ t := hule t (List.mem_cons_self _ _)
      have hule' : ∀ x ∈ rest.map Prod.fst, u ≤ x := fun x hx =>
        hule x (List.mem_cons_of_mem _ hx)
      by_cases hb : b
      · subst hb
        have hres := ih (some u) hsorted' hlast' (by
          intro v hv
          obtain rfl : u = v := by simpa using hv
          exact ⟨hule', hulast⟩)
        simp only [vad_walk, if_true]
        refine ⟨hres.1, hres.2.1, ?_⟩
        intro lb hlb hlbst
        exact hres.2.2 lb (fun x hx => hlb x (List.mem_cons_of_mem _ hx)) (by
          intro v hv
          obtain rfl : u = v := by simpa using hv
          exact hlbst u rfl)
      · simp only [Bool.not_eq_true] at hb
        subst hb
        have hres := ih none hsorted' hlast' (by simp)
        by_cases hgap : t - u > 1/5
        · simp only [vad_walk, Bool.false_eq_true, if_false, hgap, if_true]
          refine ⟨?_, ?_, ?_⟩
          · intro s hs
            rcases List.mem_cons.mp hs with rfl | hs
            · exact hut
            · exact hres.1 s hs
          · rw [List.chain'_cons']
            refine ⟨?_, hres.2.1⟩
            intro y hy
            exact hres.2.2 t (fun x hx => le_of_lt (hhd x hx)) (by simp) y
              (List.mem_of_mem_head? hy)
          · intro lb hlb hlbst s hs
            rcases List.mem_cons.mp hs with rfl | hs
            · exact hlbst u rfl
            · exact hres.2.2 lb (fun x hx => hlb x (List.mem_cons_of_mem _ hx)) (by simp) s hs
        · simp only [vad_walk, Bool.false_eq_true, if_false, hgap]
          refine ⟨hres.1, hres.2.1, ?_⟩
          intro lb hlb hlbst
          exact hres.2.2 lb (fun x hx => hlb x (List.mem_cons_of_mem _ hx)) (by simp)

theorem raw_segments_props (sr : ℚ) (hsr : 0 < sr) (mask : List Bool) :
    (∀ s ∈ raw_speech_segments sr mask, s.start ≤ s.endTime) ∧
    (raw_speech_segments sr mask).Chain' (fun a b => a.endTime ≤ b.start) := by
  unfold raw_speech_segments
  dsimp only
  have hlen : ((List.range mask.length).map (frame_time sr)).length = mask.length := by
    simp
  have hmapfst : (((List.range mask.length).map (frame_time sr)).zip mask).map Prod.fst =
      (List.range mask.length).map (frame_time sr) :=
    List.map_fst_zip _ _ (le_of_eq hlen)
  have hsorted : ((((List.range mask.length).map (frame_time sr)).zip mask).map
      Prod.fst).Pairwise (· < ·) := by
    rw [hmapfst, List.pairwise_map]
    refine (List.pairwise_lt_range _).imp ?_
    intro i j hij
    unfold frame_time
    rw [div_lt_div_iff_of_pos_right hsr]
    have : (i : ℚ) < j := by exact_mod_cast hij
    linarith
  have hlast : ∀ x ∈ (((List.range mask.length).map (frame_time sr)).zip mask).map Prod.fst,
      x ≤ frame_time sr (mask.length - 1) := by
    rw [hmapfst]
    intro x hx
    rcases List.mem_map.mp hx with ⟨i, hi, rfl⟩
    have hi' : i < mask.length := List.mem_range.mp hi
    unfold frame_time
    rw [div_le_div_iff_of_pos_right hsr]
    have : (i : ℚ) ≤ (mask.length - 1 : ℕ) := by
      exact_mod_cast Nat.le_sub_one_of_lt hi'
    linarith
  have h := vad_walk_props (frame_time sr (mask.length - 1))
    (((List.range mask.length).map (frame_time sr)).zip mask) none hsorted hlast (by simp)
  exact ⟨h.1, h.2.1⟩

theorem merge_segments_aux_head_start (cur : SpeechSegment) (l : List SpeechSegment) :
    ∃ e rest', merge_segments_aux cur l = ⟨cur.start, e⟩ :: rest' := by
  induction l generalizing cur with
  | nil => exact ⟨cur.endTime, [], rfl⟩
  | cons nxt rest ih =>
    by_cases hg : nxt.start - cur.endTime < 1/5
    · obtain ⟨e, rest', hres⟩ := ih ⟨cur.start, nxt.endTime⟩
      exact ⟨e, rest', by rw [merge_segments_aux, if_pos hg]; exact hres⟩
    · exact ⟨cur.endTime, merge_segments_aux nxt rest, by
        rw [merge_segments_aux, if_neg hg]⟩

theorem merge_segments_aux_props (l : List SpeechSegment) :
    ∀ cur : SpeechSegment, List.Chain' (fun a b => a.endTime ≤ b.start) (cur :: l) →
      (∀ s ∈ cur :: l, s.start ≤ s.endTime) →
      (∀ s ∈ merge_segments_aux cur l, s.start ≤ s.endTime) ∧
      (merge_segments_aux cur l).Chain' (fun a b => a.endTime + 1/5 ≤ b.start) := by
  induction l with
  | nil =>
    intro cur _ hwf
    exact ⟨by simpa [merge_segments_aux] using hwf cur (List.mem_cons_self _ _),
      by simp [merge_segments_aux]⟩
  | cons nxt rest ih =>
    intro cur hchain hwf
    obtain ⟨hcn, hchain'⟩ := List.chain'_cons.mp hchain
    by_cases hg : nxt.start - cur.endTime < 1/5
    · rw [merge_segments_aux, if_pos hg]
      apply ih ⟨cur.start, nxt.endTime⟩
      · rw [List.chain'_cons'] at hchain' ⊢
        exact ⟨hchain'.1, hchain'.2⟩
      · intro s hs
        rcases List.mem_cons.mp hs with rfl | hs
        · have h1 : cur.start ≤ cur.endTime := hwf cur (List.mem_cons_self _ _)
          have h2 : nxt.start ≤ nxt.endTime :=
            hwf nxt (List.mem_cons_of_mem _ (List.mem_cons_self _ _))
          show cur.start ≤ nxt.endTime
          linarith
        · exact hwf s (List.mem_cons_of_mem _ (List.mem_cons_of_mem _ hs))
    · rw [merge_segments_aux, if_neg hg]
      have hres := ih nxt hchain' (fun s hs => hwf s (List.mem_cons_of_mem _ hs))
      refine ⟨?_, ?_⟩
      · intro s hs
        rcases List.mem_cons.mp hs with rfl | hs
        · exact hwf s (List.mem_cons_self _ _)
        · exact hres.1 s hs
      · rw [List.chain'_cons']
        refine ⟨?_, hres.2⟩
        intro y hy
        obtain ⟨e, rest', heq⟩ := merge_segments_aux_head_start nxt rest
        rw [heq] at hy
        simp only [List.head?_cons, Option.mem_def, Option.some_inj] at hy
        subst hy
        show cur.endTime + 1/5 ≤ nxt.start
        linarith

theorem zip_countP_endTime (x y : SpeechSegment) (hxy : x.endTime = y.endTime)
    (rest : List SpeechSegment) :
    ((x :: rest).zip rest).countP (fun q => decide (1/5 ≤ q.2.start - q.1.endTime)) =
      ((y :: rest).zip rest).countP (fun q => decide (1/5 ≤ q.2.start - q.1.endTime)) := by
  cases rest with
  | nil => rfl
  | cons r rs =>
    simp only [List.zip_cons_cons, List.countP_cons]
    rw [hxy]

theorem merge_segments_aux_length (l : List SpeechSegment) :
    ∀ cur : SpeechSegment, (merge_segments_aux cur l).length =
      1 + ((cur :: l).zip l).countP (fun q => decide (1/5 ≤ q.2.start - q.1.endTime)) := by
  induction l with
  | nil => intro cur; simp [merge_segments_aux]
  | cons nxt rest ih =>
    intro cur
    have hzip : ((cur :: nxt :: rest).zip (nxt :: rest)) =
        (cur, nxt) :: ((nxt :: rest).zip rest) := rfl
    by_cases hg : nxt.start - cur.endTime < 1/5
    · rw [merge_segments_aux, if_pos hg, ih ⟨cur.start, nxt.endTime⟩, hzip,
        List.countP_cons, zip_countP_endTime ⟨cur.start, nxt.endTime⟩ nxt rfl rest]
      have hpred : (decide ((1:ℚ)/5 ≤ nxt.start - cur.endTime)) = false := by
        simp only [decide_eq_false_iff_not]
        linarith
      rw [hpred]
      simp
    · rw [merge_segments_aux, if_neg hg, List.length_cons, ih nxt, hzip, List.countP_cons]
      have hpred : (decide ((1:ℚ)/5 ≤ nxt.start - cur.endTime)) = true := by
        simp only [decide_eq_true_iff]
        linarith
      rw [hpred]
      simp
      omega

/-- C7: for every sample rate and speech mask, the speech-segment list
returned by `detect_speech_segments` is time-ordered and non-overlapping
(each segment has `start ≤ end`, and every consecutive pair is separated by at
least 0.2 s, so in particular `end ≤ next.start`), and the merge pass merges
exactly the raw boundaries whose gap is strictly below 0.2 s: the output
length is 1 plus the number of consecutive raw-segment pairs with gap ≥ 0.2 s
— gaps ≥ 0.2 s are never merged. -/
theorem speech_segments_invariant (sr : ℚ) (hsr : 0 < sr) (mask : List Bool) :
    (∀ s ∈ detect_speech_segments sr mask, s.start ≤ s.endTime) ∧
    (detect_speech_segments sr mask).Chain' (fun a b => a.endTime + 1/5 ≤ b.start) ∧
    (detect_speech_segments sr mask).length =
      (match raw_speech_segments sr mask with
       | [] => 0
       | c :: rest => 1 + ((c :: rest).zip rest).countP
           (fun q => decide (1/5 ≤ q.2.start - q.1.endTime))) := by
  obtain ⟨hwf, hchain⟩ := raw_segments_props sr hsr mask
  unfold detect_speech_segments
  cases hraw : raw_speech_segments sr mask with
  | nil => simp [merge_segments]
  | cons c rest =>
    rw [hraw] at hwf hchain
    unfold merge_segments
    have hp := merge_segments_aux_props rest c hchain hwf
    exact ⟨hp.1, hp.2, merge_segments_aux_length rest c⟩

/-- C7 (witness): the invariant applied at a 16 kHz sample rate and a concrete
six-frame mask. -/
theorem speech_segments_invariant_witness :
    (0 : ℚ) < 16000 ∧
    ((∀ s ∈ detect_speech_segments 16000 [true, true, false, false, false, true],
        s.start ≤ s.endTime) ∧
      (detect_speech_segments 16000 [true, true, false, false, false, true]).Chain'
        (fun a b => a.endTime + 1/5 ≤ b.start) ∧
      (detect_speech_segments 16000 [true, true, false, false, false, true]).length =
        (match raw_speech_segments 16000 [true, true, false, false, false, true] with
         | [] => 0
         | c :: rest => 1 + ((c :: rest).zip rest).countP
             (fun q => decide (1/5 ≤ q.2.start - q.1.endTime)))) :=
  ⟨by norm_num,
    speech_segments_invariant 16000 (by norm_num) [true, true, false, false, false, true]⟩
